import Mathlib

/-!
Verification of the deployment-phase orchestration specification against the
repository's sources.  Environment-variable helpers, logical-id allocation and
the image-tag wiring are embedded directly from the TypeScript sources
(`utils.ts`, `base-stack.ts`, `index.ts`, `foundation-stack.ts`,
`service-stack.ts`).  The orchestration core (dependency resolver, phase
executor, output bindings, stability monitor) is not implemented in the
repository; those components are modelled from the specification text and the
pipeline described in the planning documents.
-/

set_option maxHeartbeats 1000000

/-- Process environment: a partial map from variable names to string values,
    mirroring `process.env` where an unset variable reads as `undefined`. -/
def Env : Type := String → Option String

/-- Embedded from `utils.ts` (`src/unnamed/part_004`): `getEnvOrThrow` reads
    the variable and throws when the value is falsy, which in JavaScript
    covers both `undefined` and the empty string. -/
def getEnvOrThrow (env : Env) (name : String) : Except String String :=
  match env name with
  | none => Except.error ("Required environment variable " ++ name ++ " must be set")
  | some value =>
    if value = "" then
      Except.error ("Required environment variable " ++ name ++ " must be set")
    else
      Except.ok value

/-- Embedded from `utils.ts` (`src/unnamed/part_004`): `getEnvOrDefault` uses
    the nullish-coalescing operator, so only `undefined` (an unset variable)
    selects the default; an empty string is returned as-is. -/
def getEnvOrDefault (env : Env) (name defaultValue : String) : String :=
  match env name with
  | some value => value
  | none => defaultValue

/-- Embedded from `base-stack.ts` (`src/unnamed/part_005`):
    `BaseStack.allocateLogicalId` prepends the `prefix` context value to the
    superclass-allocated logical id when that value is truthy (a non-empty
    string), and otherwise returns the superclass id unchanged. -/
def allocateLogicalId (ctxVal : Option String) (orig : String) : String :=
  match ctxVal with
  | some p => if p = "" then orig else p ++ orig
  | none => orig

/-- Embedded from `index.ts`: `const environment = 'mp'`. -/
def environment : String := "mp"

/-- Embedded from `index.ts`: `IMAGE_TAG = getEnvOrDefault('IMAGE_TAG', 'latest')`. -/
def IMAGE_TAG (env : Env) : String := getEnvOrDefault env "IMAGE_TAG" "latest"

/-- ECR tag mutability setting, from `aws-cdk-lib/aws-ecr`. -/
inductive TagMutability where
  | mutableTags
  | immutableTags
deriving DecidableEq, Repr

/-- The slice of the ECR repository configuration relevant to image pinning,
    from `foundation-stack.ts`. -/
structure RepositoryConfig where
  repositoryName : String
  imageTagMutability : TagMutability
deriving DecidableEq, Repr

/-- Embedded from `foundation-stack.ts` lines 31-43: the repository is named
    `app-${environment}` and is created with `TagMutability.MUTABLE`. -/
def foundationRepository (environmentName : String) : RepositoryConfig :=
  ⟨"app-" ++ environmentName, TagMutability.mutableTags⟩

/-- A container image reference as produced by
    `ContainerImage.fromEcrRepository(repository, tag)`. -/
structure EcrImageRef where
  repositoryName : String
  tag : String
deriving DecidableEq, Repr

/-- The slice of `ServiceStackProps` relevant to image selection,
    from `service-stack.ts`. -/
structure ServiceStackProps where
  ecrRepositoryName : String
  imageTag : String
deriving DecidableEq, Repr

/-- Embedded from `index.ts` lines 33-45: the service stack receives the
    foundation repository's name and the `IMAGE_TAG` value. -/
def serviceStackProps (env : Env) : ServiceStackProps :=
  ⟨(foundationRepository environment).repositoryName, IMAGE_TAG env⟩

/-- Embedded from `service-stack.ts` line 66: the container image is
    `ContainerImage.fromEcrRepository(repository, props.imageTag)`. -/
def serviceContainerImage (props : ServiceStackProps) : EcrImageRef :=
  ⟨props.ecrRepositoryName, props.imageTag⟩

/-- Modelled from the spec: a `DeploymentUnit` of the Deployment Phase
    Orchestrator (section 3), with its unique identifier, declared dependency
    identifiers and produced output names.  The orchestrator itself is not
    implemented in the repository; only its unit graph (stack declarations and
    pipeline jobs) appears in the sources. -/
structure DeploymentUnit where
  id : String
  deps : List String
  outputs : List String
deriving DecidableEq, Repr

/-- Modelled from the spec: errors raised by the Dependency Graph Resolver
    (section 4.1). -/
inductive ResolverError where
  | cyclicDependency
  | unknownDependency (name : String)
deriving DecidableEq, Repr

/-- The identifiers declared by a unit graph, in declaration order. -/
def declaredIds (units : List DeploymentUnit) : List String :=
  units.map (fun u => u.id)

/-- True when every dependency of `u` is among the already-completed ids. -/
def depsReady (done : List String) (u : DeploymentUnit) : Bool :=
  u.deps.all (fun d => done.contains d)

/-- Modelled from the spec: find the first declaration-order unit whose
    dependencies are all satisfied, returning it with the rest of the list.
    Scanning in declaration order realises the tie-breaking rule of
    section 4.1. -/
def extractReady (done : List String) : List DeploymentUnit →
    Option (DeploymentUnit × List DeploymentUnit)
  | [] => none
  | u :: rest =>
    if depsReady done u then
      some (u, rest)
    else
      match extractReady done rest with
      | some (v, rest2) => some (v, u :: rest2)
      | none => none

/-- Modelled from the spec: the Kahn-style resolution loop of the Dependency
    Graph Resolver.  Each step emits one ready unit; if units remain but none
    is ready, the graph is cyclic. -/
def resolveLoop (outcomeFuel : Nat) (remaining acc : List DeploymentUnit) :
    Except ResolverError (List DeploymentUnit) :=
  match outcomeFuel, remaining with
  | _, [] => Except.ok acc.reverse
  | 0, _ :: _ => Except.error ResolverError.cyclicDependency
  | n + 1, rem@(_ :: _) =>
    match extractReady (acc.map (fun u => u.id)) rem with
    | none => Except.error ResolverError.cyclicDependency
    | some (u, rest) => resolveLoop n rest (u :: acc)

/-- Modelled from the spec: the first dependency identifier that does not
    resolve to a declared unit, if any (section 4.1, `UnknownDependencyError`). -/
def findDangling (units : List DeploymentUnit) : Option String :=
  (units.foldr (fun u acc => u.deps ++ acc) []).find?
    (fun d => !(declaredIds units).contains d)

/-- Modelled from the spec: the Dependency Graph Resolver (section 4.1).
    Rejects dangling references, then computes a declaration-order-tie-broken
    topological order, failing on cycles. -/
def resolve (units : List DeploymentUnit) : Except ResolverError (List DeploymentUnit) :=
  match findDangling units with
  | some d => Except.error (ResolverError.unknownDependency d)
  | none => resolveLoop units.length units []

/-- A plan is a topological order: every dependency of a unit is produced by a
    strictly earlier unit of the plan (spec section 3, Execution Plan
    invariant). -/
def planRespects (plan : List DeploymentUnit) : Prop :=
  ∀ i : Fin plan.length, ∀ d ∈ (plan.get i).deps,
    ∃ j : Fin plan.length, j.val < i.val ∧ (plan.get j).id = d

instance (plan : List DeploymentUnit) : Decidable (planRespects plan) := by
  unfold planRespects
  infer_instance

/-- Edge relation of the declared unit graph: `a` depends directly on `b`. -/
def dependsOn (units : List DeploymentUnit) (a b : String) : Prop :=
  ∃ u ∈ units, u.id = a ∧ b ∈ u.deps

/-- A unit graph contains a dependency cycle when some identifier depends on
    itself through one or more edges. -/
def hasCycle (units : List DeploymentUnit) : Prop :=
  ∃ a, Relation.TransGen (dependsOn units) a a

/-- Position of a unit identifier in a plan. -/
def idPos (plan : List DeploymentUnit) (a : String) : Nat :=
  (plan.map (fun u => u.id)).indexOf a

/-- The unit graph of `index.ts`: `FoundationStack` with its exported outputs
    (`foundation-stack.ts` lines 100-146). -/
def foundationUnit : DeploymentUnit :=
  ⟨"FoundationStack", [],
    ["EcrRepositoryUri", "ClusterArn", "ClusterName", "AlbListenerArn",
     "LoadBalancerDns", "TaskSecurityGroupId", "AlbSecurityGroupId", "LogGroupArn"]⟩

/-- The unit graph of `index.ts`: `ServiceStack`, which declares
    `serviceStack.addDependency(foundationStack)` (line 47). -/
def serviceUnit : DeploymentUnit :=
  ⟨"ServiceStack", ["FoundationStack"], ["ServiceName", "ServiceArn", "ClusterName"]⟩

/-- The concrete two-unit graph declared by `index.ts`. -/
def appUnits : List DeploymentUnit := [foundationUnit, serviceUnit]

/-- Modelled from the spec: the externally determined outcome of one unit's
    apply/verify operations during a run (sections 4.2 and 4.3).  The Phase
    Executor and Readiness Gate are not implemented in the repository. -/
inductive UnitOutcome where
  | succeeds
  | applyFails (err : String)
  | verifyTimesOut
deriving DecidableEq, Repr

/-- Modelled from the spec: one entry of the Run Record (section 3).
    `applying` records the unit entering the `Applying` state, `ready` records
    its readiness gate passing, `failed` records a terminal failure with the
    underlying error, and `missingBinding` records an executor-time
    `MissingBindingError`. -/
inductive Event where
  | applying (id : String)
  | ready (id : String)
  | failed (id : String) (err : String)
  | missingBinding (id : String)
deriving DecidableEq, Repr

/-- Modelled from the spec: the Phase Executor (section 4.2) with the
    Readiness Gate folded into each unit's outcome.  Units run in plan order;
    a unit enters `Applying` only once every dependency is among the ready
    ids; a unit is marked `ready` only after its gate passes; any failure
    halts the run with no retry. -/
def execPlan (outcome : String → UnitOutcome) :
    List DeploymentUnit → List String → List Event
  | [], _ => []
  | u :: rest, readyIds =>
    if depsReady readyIds u then
      match outcome u.id with
      | UnitOutcome.succeeds =>
        Event.applying u.id :: Event.ready u.id ::
          execPlan outcome rest (u.id :: readyIds)
      | UnitOutcome.applyFails err => [Event.applying u.id, Event.failed u.id err]
      | UnitOutcome.verifyTimesOut =>
        [Event.applying u.id, Event.failed u.id "ReadinessTimeoutError"]
    else
      [Event.missingBinding u.id]

/-- Modelled from the spec: a full orchestration run resolves the unit graph
    and then executes the plan (sections 4.1 and 4.2). -/
def runOrchestration (outcome : String → UnitOutcome) (units : List DeploymentUnit) :
    Except ResolverError (List Event) :=
  (resolve units).map (fun plan => execPlan outcome plan [])

/-- The Run Record events of an all-successful execution of the given units,
    in order. -/
def okEvents : List DeploymentUnit → List Event
  | [] => []
  | u :: rest => Event.applying u.id :: Event.ready u.id :: okEvents rest

/-- Identifiers of processed units pushed onto the ready-id accumulator, in
    processing order. -/
def pushIds : List DeploymentUnit → List String → List String
  | [], readyIds => readyIds
  | u :: rest, readyIds => pushIds rest (u.id :: readyIds)

/-- True when each listed unit's dependencies are satisfied by the
    accumulated ids of the units before it. -/
def depsFromEarlier : List DeploymentUnit → List String → Bool
  | [], _ => true
  | u :: rest, done => depsReady done u && depsFromEarlier rest (u.id :: done)

/-- The CI pipeline unit graph from the planning document
    (`src/unnamed/part_001`): `deploy-ecr` has no deployment dependency. -/
def deployEcrUnit : DeploymentUnit := ⟨"deploy-ecr", [], ["repository"]⟩

/-- Pipeline unit `build-and-push`, declared with `needs: deploy-ecr`. -/
def buildAndPushUnit : DeploymentUnit := ⟨"build-and-push", ["deploy-ecr"], ["image"]⟩

/-- Pipeline unit `deploy-ecs`, declared with
    `needs: [deploy-ecr, build-and-push]`. -/
def deployEcsUnit : DeploymentUnit :=
  ⟨"deploy-ecs", ["deploy-ecr", "build-and-push"], ["service"]⟩

/-- The concrete pipeline graph, in declaration order. -/
def pipelineUnits : List DeploymentUnit := [deployEcrUnit, buildAndPushUnit, deployEcsUnit]

/-- An outcome assignment in which every unit succeeds. -/
def allSucceed : String → UnitOutcome := fun _ => UnitOutcome.succeeds

/-- An outcome assignment in which `build-and-push` fails its apply
    operation and every other unit succeeds. -/
def buildPushFails : String → UnitOutcome := fun uid =>
  if uid = "build-and-push" then UnitOutcome.applyFails "docker push failed"
  else UnitOutcome.succeeds

/-- Modelled from the spec: one recorded entry of the Output Bindings map
    (section 3), keyed by unit identifier and output name. -/
structure Binding where
  unitId : String
  outputName : String
  value : String
deriving DecidableEq, Repr

/-- Modelled from the spec: the Output Bindings map of one orchestration run. -/
abbrev OutputBindings : Type := List Binding

/-- Look up the value recorded for a (unit identifier, output name) key. -/
def lookupBinding (bs : OutputBindings) (uid oname : String) : Option String :=
  match bs.find? (fun b => b.unitId = uid && b.outputName = oname) with
  | some b => some b.value
  | none => none

/-- Modelled from the spec: recording an output binding is write-once per
    (unit identifier, output name) key — a second write for an existing key
    is a no-op, never an overwrite (section 5). -/
def recordBinding (bs : OutputBindings) (uid oname v : String) : OutputBindings :=
  if (lookupBinding bs uid oname).isSome then bs
  else (⟨uid, oname, v⟩ : Binding) :: bs

/-- Apply a sequence of binding writes in order. -/
def recordAll (bs : OutputBindings) (writes : List Binding) : OutputBindings :=
  writes.foldl (fun m w => recordBinding m w.unitId w.outputName w.value) bs

/-- Modelled from the spec: the workload health as observed by the Stability
    Monitor (section 4.4).  `rolledBack` is the state in which the platform's
    own rollback mechanism (the deployment circuit breaker of
    `service-stack.ts` line 81) has reported failure. -/
inductive HealthState where
  | stable
  | deploying
  | rolledBack
deriving DecidableEq, Repr

/-- Modelled from the spec: actions the Stability Monitor could take against
    the external system.  `poll` is the read-only health query; `remediate`
    is a corrective action, present in the type to state that the monitor
    never performs one. -/
inductive MonitorAction where
  | poll (t : Nat)
  | remediate (t : Nat)
deriving DecidableEq, Repr

/-- Modelled from the spec: the Stability Monitor's verdict (section 4.4). -/
inductive MonitorResult where
  | stableOk
  | deploymentUnstable (lastState : HealthState)
  | stabilityTimeout
deriving DecidableEq, Repr

/-- Modelled from the spec: the Stability Monitor poll loop (section 4.4).
    It polls the observed health until the workload is stable, the budget is
    exhausted, or a regression (platform rollback) is observed, in which case
    it surfaces `deploymentUnstable` carrying the last known state. -/
def monitorLoop (obs : Nat → HealthState) : Nat → Nat → List MonitorAction × MonitorResult
  | 0, _ => ([], MonitorResult.stabilityTimeout)
  | n + 1, t =>
    match obs t with
    | HealthState.stable => ([MonitorAction.poll t], MonitorResult.stableOk)
    | HealthState.rolledBack =>
      ([MonitorAction.poll t], MonitorResult.deploymentUnstable HealthState.rolledBack)
    | HealthState.deploying =>
      let r := monitorLoop obs n (t + 1)
      (MonitorAction.poll t :: r.1, r.2)

/-- A concrete health trace: the deployment is in progress for two polls and
    the platform then reports a rollback. -/
def rollbackObs : Nat → HealthState := fun t =>
  if t < 2 then HealthState.deploying else HealthState.rolledBack

/-- A concrete environment in which `AWS_ACCOUNT_ID` is set non-empty,
    `AWS_VPC_ID` is set to the empty string and everything else is unset. -/
def sampleEnv : Env := fun name =>
  if name = "AWS_ACCOUNT_ID" then some "123456789012"
  else if name = "AWS_VPC_ID" then some ""
  else none

/-- A concrete environment with no variables set. -/
def emptyEnv : Env := fun _ => none

/-- Invariant of the resolver's accumulator (most recently emitted unit
    first): every unit's dependencies are produced by units emitted before
    it. -/
def accOk : List DeploymentUnit → Prop
  | [] => True
  | u :: rest => (∀ d ∈ u.deps, d ∈ rest.map (fun v => v.id)) ∧ accOk rest

/-- A concrete two-unit graph with a dependency cycle. -/
def cycUnits : List DeploymentUnit :=
  [⟨"A", ["B"], []⟩, ⟨"B", ["A"], []⟩]

theorem extractReady_eq_some (done : List String) :
    ∀ l u rest, extractReady done l = some (u, rest) →
      ∃ pre post, l = pre ++ u :: post ∧ rest = pre ++ post ∧
        (∀ x ∈ pre, depsReady done x = false) ∧ depsReady done u = true := by
  intro l
  induction l with
  | nil => intro u rest h; simp [extractReady] at h
  | cons v vs ih =>
    intro u rest h
    by_cases hv : depsReady done v
    · rw [extractReady, if_pos hv] at h
      obtain ⟨hu, hrest⟩ := Prod.mk.injEq .. ▸ Option.some.injEq .. ▸ h
      refine ⟨[], vs, ?_, ?_, ?_, ?_⟩
      · simp [hu]
      · simp [hrest]
      · simp
      · rw [← hu]; exact hv
    · rw [extractReady, if_neg hv] at h
      cases hrec : extractReady done vs with
      | none => rw [hrec] at h; cases h
      | some pr =>
        rw [hrec] at h
        obtain ⟨w, rest2⟩ := pr
        obtain ⟨hu, hrest⟩ := Prod.mk.injEq .. ▸ Option.some.injEq .. ▸ h
        obtain ⟨pre, post, hvs, hrest2, hpre, hw⟩ := ih w rest2 hrec
        refine ⟨v :: pre, post, ?_, ?_, ?_, ?_⟩
        · simp [hvs, hu]
        · simp [← hrest, hrest2]
        · intro x hx
          rcases List.mem_cons.mp hx with hx | hx
          · subst hx; simpa using hv
          · exact hpre x hx
        · rw [← hu]; exact hw

theorem resolveLoop_ok_inv :
    ∀ (n : Nat) (remaining acc plan : List DeploymentUnit), accOk acc →
      resolveLoop n remaining acc = Except.ok plan →
      ∃ acc2, accOk acc2 ∧ plan = acc2.reverse ∧
        plan.Perm (acc.reverse ++ remaining) := by
  intro n
  induction n with
  | zero =>
    intro remaining acc plan hacc h
    cases remaining with
    | nil =>
      rw [resolveLoop] at h
      injection h with h2
      subst h2
      exact ⟨acc, hacc, rfl, by simp⟩
    | cons r rs => rw [resolveLoop] at h; cases h
  | succ m ih =>
    intro remaining acc plan hacc h
    cases remaining with
    | nil =>
      rw [resolveLoop] at h
      injection h with h2
      subst h2
      exact ⟨acc, hacc, rfl, by simp⟩
    | cons r rs =>
      rw [resolveLoop] at h
      cases hex : extractReady (acc.map (fun u => u.id)) (r :: rs) with
      | none => rw [hex] at h; cases h
      | some pr =>
        rw [hex] at h
        obtain ⟨u, rest⟩ := pr
        obtain ⟨pre, post, hsplit, hrest, _, hready⟩ :=
          extractReady_eq_some _ _ _ _ hex
        have hdeps : ∀ d ∈ u.deps, d ∈ acc.map (fun v => v.id) := by
          intro d hd
          have := List.all_eq_true.mp hready d hd
          simpa using this
        obtain ⟨acc2, hacc2, hplan, hperm⟩ := ih rest (u :: acc) plan ⟨hdeps, hacc⟩ h
        refine ⟨acc2, hacc2, hplan, ?_⟩
        refine hperm.trans ?_
        rw [hsplit, hrest]
        have h1 : (u :: acc).reverse ++ (pre ++ post) =
            acc.reverse ++ (u :: (pre ++ post)) := by simp
        rw [h1]
        exact (List.perm_middle.symm).append_left acc.reverse

theorem planRespects_append_one (xs : List DeploymentUnit) (u : DeploymentUnit)
    (hxs : planRespects xs) (hu : ∀ d ∈ u.deps, d ∈ xs.map (fun v => v.id)) :
    planRespects (xs ++ [u]) := by
  intro i d hd
  have hlen : (xs ++ [u]).length = xs.length + 1 := by simp
  by_cases hi : i.val < xs.length
  · have hget : (xs ++ [u]).get i = xs.get ⟨i.val, hi⟩ := by
      rw [List.get_eq_getElem, List.get_eq_getElem, List.getElem_append_left]
    rw [hget] at hd
    obtain ⟨j, hj, hjid⟩ := hxs ⟨i.val, hi⟩ d hd
    refine ⟨⟨j.val, by omega⟩, hj, ?_⟩
    have : (xs ++ [u]).get ⟨j.val, by omega⟩ = xs.get j := by
      rw [List.get_eq_getElem, List.get_eq_getElem, List.getElem_append_left]
    rw [this]
    exact hjid
  · have hi2 : i.val = xs.length := by
      have := i.isLt
      omega
    have hget : (xs ++ [u]).get i = u := by
      rw [List.get_eq_getElem]
      rw [List.getElem_append_right (by omega)]
      simp [hi2]
    rw [hget] at hd
    have hmem := hu d hd
    obtain ⟨j, hjget⟩ := List.mem_iff_get.mp hmem
    have hjlen : j.val < xs.length := by
      have := j.isLt
      simpa using this
    refine ⟨⟨j.val, by rw [hlen]; omega⟩, by simp only [hi2]; exact hjlen, ?_⟩
    have hmap : (xs.map (fun v => v.id)).get j = (xs.get ⟨j.val, hjlen⟩).id := by
      rw [List.get_eq_getElem, List.get_eq_getElem, List.getElem_map]
    have : (xs ++ [u]).get ⟨j.val, by omega⟩ = xs.get ⟨j.val, hjlen⟩ := by
      rw [List.get_eq_getElem, List.get_eq_getElem, List.getElem_append_left]
    rw [this, ← hmap, hjget]

theorem accOk_reverse : ∀ (acc : List DeploymentUnit), accOk acc →
    planRespects acc.reverse := by
  intro acc
  induction acc with
  | nil =>
    intro _ i
    exact absurd i.isLt (by simp)
  | cons u rest ih =>
    intro h
    obtain ⟨hu, hrest⟩ := h
    have hrw : (u :: rest).reverse = rest.reverse ++ [u] := by simp
    rw [hrw]
    refine planRespects_append_one _ _ (ih hrest) ?_
    intro d hd
    have := hu d hd
    simpa using this

theorem resolveLoop_filter (p : DeploymentUnit → Bool)
    (hp : ∀ (done : List String) (u : DeploymentUnit), p u = true →
      depsReady done u = true) :
    ∀ (n : Nat) (remaining acc plan : List DeploymentUnit),
      resolveLoop n remaining acc = Except.ok plan →
      plan.filter p = acc.reverse.filter p ++ remaining.filter p := by
  intro n
  induction n with
  | zero =>
    intro remaining acc plan h
    cases remaining with
    | nil =>
      rw [resolveLoop] at h
      injection h with h2
      subst h2
      simp
    | cons r rs => rw [resolveLoop] at h; cases h
  | succ m ih =>
    intro remaining acc plan h
    cases remaining with
    | nil =>
      rw [resolveLoop] at h
      injection h with h2
      subst h2
      simp
    | cons r rs =>
      rw [resolveLoop] at h
      cases hex : extractReady (acc.map (fun u => u.id)) (r :: rs) with
      | none => rw [hex] at h; cases h
      | some pr =>
        rw [hex] at h
        obtain ⟨u, rest⟩ := pr
        obtain ⟨pre, post, hsplit, hrest, hpre, _⟩ :=
          extractReady_eq_some _ _ _ _ hex
        have hprefilter : pre.filter p = [] := by
          rw [List.filter_eq_nil_iff]
          intro x hx
          intro hpx
          have := hp (acc.map (fun v => v.id)) x hpx
          rw [hpre x hx] at this
          cases this
        have := ih rest (u :: acc) plan h
        rw [this, hsplit, hrest]
        simp only [List.filter_append, List.filter_cons, List.reverse_cons, hprefilter]
        by_cases hpu : p u = true <;> simp [hpu]

theorem indexOf_le_of_get :
    ∀ (l : List String) (j : Nat) (h : j < l.length) (b : String),
      l.get ⟨j, h⟩ = b → l.indexOf b ≤ j := by
  intro l
  induction l with
  | nil => intro j h; simp at h
  | cons x xs ih =>
    intro j h b hget
    cases j with
    | zero =>
      simp at hget
      subst hget
      simp [List.indexOf_cons_self]
    | succ j2 =>
      by_cases hx : x = b
      · rw [List.indexOf_cons_eq _ hx]
        omega
      · rw [List.indexOf_cons_ne _ hx]
        have hj2 : j2 < xs.length := by simpa using h
        have : xs.get ⟨j2, hj2⟩ = b := by simpa using hget
        have := ih j2 hj2 b this
        omega

theorem resolve_ok_facts (units plan : List DeploymentUnit)
    (hres : resolve units = Except.ok plan) :
    planRespects plan ∧ plan.Perm units := by
  unfold resolve at hres
  cases hfd : findDangling units with
  | some d => rw [hfd] at hres; cases hres
  | none =>
    rw [hfd] at hres
    obtain ⟨acc2, hacc2, hplan, hperm⟩ :=
      resolveLoop_ok_inv units.length units [] plan trivial hres
    constructor
    · rw [hplan]
      exact accOk_reverse acc2 hacc2
    · simpa using hperm

theorem resolve_dep_lt (units plan : List DeploymentUnit)
    (hres : resolve units = Except.ok plan)
    (hnd : (declaredIds units).Nodup) :
    ∀ a b, dependsOn units a b → idPos plan b < idPos plan a := by
  obtain ⟨hresp, hperm⟩ := resolve_ok_facts units plan hres
  have hndplan : (plan.map (fun u => u.id)).Nodup := by
    refine (List.Perm.nodup_iff ?_).mpr hnd
    exact hperm.map (fun u => u.id)
  intro a b hdep
  obtain ⟨u, hu, hua, hbdep⟩ := hdep
  have huplan : u ∈ plan := hperm.mem_iff.mpr hu
  obtain ⟨i, higet⟩ := List.mem_iff_get.mp huplan
  obtain ⟨j, hj, hjid⟩ := hresp i b (higet ▸ hbdep)
  have hilen : i.val < (plan.map (fun v => v.id)).length := by simp only [List.length_map]; exact i.isLt
  have hjlen : j.val < (plan.map (fun v => v.id)).length := by simp only [List.length_map]; exact j.isLt
  have higet : (plan.map (fun v => v.id)).get ⟨i.val, hilen⟩ = a := by
    simp only [List.get_eq_getElem, List.getElem_map]
    rw [← List.get_eq_getElem, higet, hua]
  have hjget : (plan.map (fun v => v.id)).get ⟨j.val, hjlen⟩ = b := by
    simp only [List.get_eq_getElem, List.getElem_map]
    rw [← List.get_eq_getElem, hjid]
  have hia : idPos plan a = i.val := by
    unfold idPos
    rw [← higet]
    exact List.get_indexOf hndplan ⟨i.val, hilen⟩
  have hjb : idPos plan b ≤ j.val := indexOf_le_of_get _ j.val hjlen b hjget
  omega

theorem resolveLoop_error_eq :
    ∀ (n : Nat) (remaining acc : List DeploymentUnit) (e : ResolverError),
      resolveLoop n remaining acc = Except.error e →
      e = ResolverError.cyclicDependency := by
  intro n
  induction n with
  | zero =>
    intro remaining acc e h
    cases remaining with
    | nil => rw [resolveLoop] at h; cases h
    | cons r rs =>
      rw [resolveLoop] at h
      exact (Except.error.injEq .. ▸ h).symm
  | succ m ih =>
    intro remaining acc e h
    cases remaining with
    | nil => rw [resolveLoop] at h; cases h
    | cons r rs =>
      rw [resolveLoop] at h
      cases hex : extractReady (acc.map (fun u => u.id)) (r :: rs) with
      | none =>
        rw [hex] at h
        exact (Except.error.injEq .. ▸ h).symm
      | some pr =>
        rw [hex] at h
        exact ih pr.2 (pr.1 :: acc) e h

/-- C1: for every acyclic unit graph accepted by the Dependency Graph
    Resolver, the produced execution plan is a topological order — for every
    edge where unit A depends on unit B, B appears strictly before A in the
    plan; and on the repository's concrete graph the resolver orders
    `FoundationStack` strictly before `ServiceStack`. -/
theorem resolver_topological :
    (∀ units plan, resolve units = Except.ok plan → planRespects plan) ∧
    resolve appUnits = Except.ok [foundationUnit, serviceUnit] := by
  constructor
  · intro units plan hres
    exact (resolve_ok_facts units plan hres).1
  · rfl

/-- Witness for C1: the resolver's concrete plan for the graph of `index.ts`
    is a topological order. -/
theorem resolver_topological_app : planRespects [foundationUnit, serviceUnit] :=
  resolver_topological.1 appUnits [foundationUnit, serviceUnit] resolver_topological.2

/-- C3: every well-formed unit graph that contains a dependency cycle makes
    the Dependency Graph Resolver fail with `CyclicDependencyError`; it never
    returns a (partial) execution order for such a graph. -/
theorem resolver_rejects_cycles (units : List DeploymentUnit)
    (hnd : (declaredIds units).Nodup)
    (hnodangling : findDangling units = none)
    (hcyc : hasCycle units) :
    resolve units = Except.error ResolverError.cyclicDependency := by
  cases hres : resolve units with
  | ok plan =>
    exfalso
    obtain ⟨a, htg⟩ := hcyc
    have hlt : ∀ x y, Relation.TransGen (dependsOn units) x y →
        idPos plan y < idPos plan x := by
      intro x y h
      induction h with
      | single h1 => exact resolve_dep_lt units plan hres hnd _ _ h1
      | tail h1 h2 ih =>
        exact lt_trans (resolve_dep_lt units plan hres hnd _ _ h2) ih
    exact lt_irrefl _ (hlt a a htg)
  | error e =>
    have he : e = ResolverError.cyclicDependency := by
      unfold resolve at hres
      rw [hnodangling] at hres
      exact resolveLoop_error_eq units.length units [] e hres
    rw [he]

/-- Witness for C3: the resolver rejects the concrete cyclic two-unit graph. -/
theorem resolver_rejects_cycles_cyc :
    resolve cycUnits = Except.error ResolverError.cyclicDependency := by
  have hAB : dependsOn cycUnits "A" "B" := by unfold dependsOn; decide
  have hBA : dependsOn cycUnits "B" "A" := by unfold dependsOn; decide
  exact resolver_rejects_cycles cycUnits (by decide) (by decide)
    ⟨"A", Relation.TransGen.head hAB (Relation.TransGen.single hBA)⟩

/-- C6: the resolver is deterministic — on the same declared unit graph it
    produces the same execution plan — and ties among immediately-ready
    independent units (units with no dependencies) are broken by declaration
    order: the plan lists them exactly in declaration order. -/
theorem resolver_deterministic (units plan : List DeploymentUnit)
    (hres : resolve units = Except.ok plan) :
    (∀ plan2, resolve units = Except.ok plan2 → plan2 = plan) ∧
    plan.filter (fun u => u.deps.isEmpty) =
      units.filter (fun u => u.deps.isEmpty) := by
  constructor
  · intro plan2 h2
    rw [hres] at h2
    injection h2 with h3
    exact h3.symm
  · unfold resolve at hres
    cases hfd : findDangling units with
    | some d => rw [hfd] at hres; cases hres
    | none =>
      rw [hfd] at hres
      have hp : ∀ (done : List String) (u : DeploymentUnit),
          (fun u => u.deps.isEmpty) u = true → depsReady done u = true := by
        intro done u hu
        have : u.deps = [] := by simpa using hu
        simp [depsReady, this]
      have := resolveLoop_filter (fun u => u.deps.isEmpty) hp
        units.length units [] plan hres
      simpa using this

/-- Witness for C6: on the concrete pipeline graph the resolver's plan keeps
    the dependency-free units in declaration order. -/
theorem resolver_deterministic_pipeline :
    [deployEcrUnit, buildAndPushUnit, deployEcsUnit].filter (fun u => u.deps.isEmpty) =
      pipelineUnits.filter (fun u => u.deps.isEmpty) :=
  (resolver_deterministic pipelineUnits
    [deployEcrUnit, buildAndPushUnit, deployEcsUnit] (by rfl)).2

theorem applying_mem_execPlan (outcome : String → UnitOutcome) :
    ∀ (plan : List DeploymentUnit) (readyIds : List String) (w : String),
      Event.applying w ∈ execPlan outcome plan readyIds →
      w ∈ plan.map (fun u => u.id) := by
  intro plan
  induction plan with
  | nil => intro readyIds w h; simp [execPlan] at h
  | cons u rest ih =>
    intro readyIds w h
    by_cases hready : depsReady readyIds u
    · cases ho : outcome u.id with
      | succeeds =>
        rw [execPlan, if_pos hready, ho] at h
        rcases List.mem_cons.mp h with h1 | h1
        · injection h1 with h2
          simp [h2]
        · rcases List.mem_cons.mp h1 with h2 | h2
          · cases h2
          · have := ih (u.id :: readyIds) w h2
            simp [this]
      | applyFails err =>
        rw [execPlan, if_pos hready, ho] at h
        rcases List.mem_cons.mp h with h1 | h1
        · injection h1 with h2
          simp [h2]
        · simp at h1
      | verifyTimesOut =>
        rw [execPlan, if_pos hready, ho] at h
        rcases List.mem_cons.mp h with h1 | h1
        · injection h1 with h2
          simp [h2]
        · simp at h1
    · rw [execPlan, if_neg hready] at h
      simp at h

theorem execPlan_gate (outcome : String → UnitOutcome) :
    ∀ (plan : List DeploymentUnit) (readyIds : List String)
      (pre post : List Event) (uid : String),
      (plan.map (fun u => u.id)).Nodup →
      execPlan outcome plan readyIds = pre ++ Event.applying uid :: post →
      ∀ u ∈ plan, u.id = uid → ∀ d ∈ u.deps,
        d ∈ readyIds ∨ Event.ready d ∈ pre := by
  intro plan
  induction plan with
  | nil =>
    intro readyIds pre post uid _ heq
    exfalso
    have : Event.applying uid ∈ execPlan outcome [] readyIds := by
      rw [heq]; simp
    simp [execPlan] at this
  | cons v rest ih =>
    intro readyIds pre post uid hnd heq u hu huid d hd
    have hndrest : (rest.map (fun w => w.id)).Nodup := by
      simpa using hnd.of_cons
    have hvnotin : v.id ∉ rest.map (fun w => w.id) := by
      have := hnd
      simp only [List.map_cons, List.nodup_cons] at this
      exact this.1
    by_cases hready : depsReady readyIds v
    · have hdepsv : ∀ e ∈ v.deps, e ∈ readyIds := by
        intro e he
        have := List.all_eq_true.mp hready e he
        simpa using this
      cases ho : outcome v.id with
      | succeeds =>
        rw [execPlan, if_pos hready, ho] at heq
        cases pre with
        | nil =>
          simp only [List.nil_append] at heq
          injection heq with h1 h2
          injection h1 with hvid
          rcases List.mem_cons.mp hu with h3 | h3
          · subst h3
            exact Or.inl (hdepsv d hd)
          · exfalso
            apply hvnotin
            rw [hvid, ← huid]
            exact List.mem_map_of_mem (fun w => w.id) h3
        | cons e pre2 =>
          injection heq with h1 h2
          cases pre2 with
          | nil =>
            have h2b : Event.ready v.id :: execPlan outcome rest (v.id :: readyIds) =
                Event.applying uid :: post := h2
            injection h2b with h3 h4
            cases h3
          | cons e2 pre3 =>
            injection h2 with h3 h4
            rcases List.mem_cons.mp hu with h5 | h5
            · exfalso
              apply hvnotin
              have happ : Event.applying uid ∈ execPlan outcome rest (v.id :: readyIds) := by
                rw [h4]; simp
              have := applying_mem_execPlan outcome rest (v.id :: readyIds) uid happ
              rw [← huid, h5] at this
              exact this
            · have := ih (v.id :: readyIds) pre3 post uid hndrest h4 u h5 huid d hd
              rcases this with h6 | h6
              · rcases List.mem_cons.mp h6 with h7 | h7
                · right
                  rw [← h1, ← h3, h7]
                  simp
                · exact Or.inl h7
              · right
                rw [← h1, ← h3]
                simp [h6]
      | applyFails err =>
        rw [execPlan, if_pos hready, ho] at heq
        cases pre with
        | nil =>
          simp only [List.nil_append] at heq
          injection heq with h1 h2
          injection h1 with hvid
          rcases List.mem_cons.mp hu with h3 | h3
          · subst h3
            exact Or.inl (hdepsv d hd)
          · exfalso
            apply hvnotin
            rw [hvid, ← huid]
            exact List.mem_map_of_mem (fun w => w.id) h3
        | cons e pre2 =>
          injection heq with h1 h2
          exfalso
          have : Event.applying uid ∈ ([Event.failed v.id err] : List Event) := by
            rw [h2]; simp
          simp at this
      | verifyTimesOut =>
        rw [execPlan, if_pos hready, ho] at heq
        cases pre with
        | nil =>
          simp only [List.nil_append] at heq
          injection heq with h1 h2
          injection h1 with hvid
          rcases List.mem_cons.mp hu with h3 | h3
          · subst h3
            exact Or.inl (hdepsv d hd)
          · exfalso
            apply hvnotin
            rw [hvid, ← huid]
            exact List.mem_map_of_mem (fun w => w.id) h3
        | cons e pre2 =>
          injection heq with h1 h2
          exfalso
          have : Event.applying uid ∈
              ([Event.failed v.id "ReadinessTimeoutError"] : List Event) := by
            rw [h2]; simp
          simp at this
    · rw [execPlan, if_neg hready] at heq
      exfalso
      have : Event.applying uid ∈ ([Event.missingBinding v.id] : List Event) := by
        rw [heq]; simp
      simp at this

/-- C2: in every orchestration run, a unit never enters `Applying` before
    every one of its declared dependencies has reached `Ready` (its readiness
    gate passed): wherever the Run Record shows `applying` for a unit, a
    `ready` entry for each of its dependencies appears strictly earlier. -/
theorem applying_requires_ready_deps (outcome : String → UnitOutcome)
    (units : List DeploymentUnit) (trace pre post : List Event) (uid : String)
    (hnd : (declaredIds units).Nodup)
    (hrun : runOrchestration outcome units = Except.ok trace)
    (hsplit : trace = pre ++ Event.applying uid :: post) :
    ∀ u ∈ units, u.id = uid → ∀ d ∈ u.deps, Event.ready d ∈ pre := by
  unfold runOrchestration at hrun
  cases hres : resolve units with
  | error e => rw [hres] at hrun; cases hrun
  | ok plan =>
    rw [hres] at hrun
    have htrace : trace = execPlan outcome plan [] := by
      injection hrun with h2
      exact h2.symm
    have hperm := (resolve_ok_facts units plan hres).2
    have hndplan : (plan.map (fun u => u.id)).Nodup := by
      refine (List.Perm.nodup_iff ?_).mpr hnd
      exact hperm.map (fun u => u.id)
    intro u hu huid d hd
    have huplan : u ∈ plan := hperm.mem_iff.mpr hu
    have heq : execPlan outcome plan [] = pre ++ Event.applying uid :: post := by
      rw [← htrace, hsplit]
    have := execPlan_gate outcome plan [] pre post uid hndplan heq u huplan huid d hd
    rcases this with h1 | h1
    · simp at h1
    · exact h1

/-- Witness for C2: in the all-successful run of the concrete pipeline, the
    `deploy-ecs` phase starts only after both `deploy-ecr` and
    `build-and-push` have reached `Ready`. -/
theorem applying_requires_ready_deps_pipeline :
    Event.ready "deploy-ecr" ∈
      [Event.applying "deploy-ecr", Event.ready "deploy-ecr",
       Event.applying "build-and-push", Event.ready "build-and-push"] ∧
    Event.ready "build-and-push" ∈
      [Event.applying "deploy-ecr", Event.ready "deploy-ecr",
       Event.applying "build-and-push", Event.ready "build-and-push"] :=
  ⟨applying_requires_ready_deps allSucceed pipelineUnits
      [Event.applying "deploy-ecr", Event.ready "deploy-ecr",
       Event.applying "build-and-push", Event.ready "build-and-push",
       Event.applying "deploy-ecs", Event.ready "deploy-ecs"]
      [Event.applying "deploy-ecr", Event.ready "deploy-ecr",
       Event.applying "build-and-push", Event.ready "build-and-push"]
      [Event.ready "deploy-ecs"] "deploy-ecs" (by decide) (by rfl) (by rfl)
      deployEcsUnit (by decide) (by rfl) "deploy-ecr" (by decide),
   applying_requires_ready_deps allSucceed pipelineUnits
      [Event.applying "deploy-ecr", Event.ready "deploy-ecr",
       Event.applying "build-and-push", Event.ready "build-and-push",
       Event.applying "deploy-ecs", Event.ready "deploy-ecs"]
      [Event.applying "deploy-ecr", Event.ready "deploy-ecr",
       Event.applying "build-and-push", Event.ready "build-and-push"]
      [Event.ready "deploy-ecs"] "deploy-ecs" (by decide) (by rfl) (by rfl)
      deployEcsUnit (by decide) (by rfl) "build-and-push" (by decide)⟩

theorem applying_mem_okEvents :
    ∀ (vs : List DeploymentUnit) (w : String),
      Event.applying w ∈ okEvents vs ↔ w ∈ vs.map (fun u => u.id) := by
  intro vs
  induction vs with
  | nil => intro w; simp [okEvents]
  | cons v rest ih =>
    intro w
    rw [okEvents]
    constructor
    · intro h
      rcases List.mem_cons.mp h with h1 | h1
      · injection h1 with h2
        simp [h2]
      · rcases List.mem_cons.mp h1 with h2 | h2
        · cases h2
        · have := (ih w).mp h2
          simp [this]
    · intro h
      rw [List.map_cons] at h
      rcases List.mem_cons.mp h with h1 | h1
      · rw [h1]; simp
      · have := (ih w).mpr h1
        simp [this]

theorem execPlan_ok_segment (outcome : String → UnitOutcome) :
    ∀ (before rest2 : List DeploymentUnit) (readyIds : List String),
      (∀ v ∈ before, outcome v.id = UnitOutcome.succeeds) →
      depsFromEarlier before readyIds = true →
      execPlan outcome (before ++ rest2) readyIds =
        okEvents before ++ execPlan outcome rest2 (pushIds before readyIds) := by
  intro before
  induction before with
  | nil => intro rest2 readyIds _ _; simp [okEvents, pushIds]
  | cons v vs ih =>
    intro rest2 readyIds hok hde
    rw [depsFromEarlier, Bool.and_eq_true] at hde
    have hcons : (v :: vs) ++ rest2 = v :: (vs ++ rest2) := by simp
    rw [hcons, execPlan, if_pos hde.1, hok v (List.mem_cons_self v vs)]
    rw [ih rest2 (v.id :: readyIds) (fun w hw => hok w (List.mem_cons_of_mem v hw)) hde.2]
    rw [okEvents, pushIds]
    simp

/-- C4: when a unit's apply operation fails, the Phase Executor halts the run
    immediately — the Run Record ends at that unit's failure, no unit later in
    the plan ever enters `Applying`, the failure names the failing unit and
    carries the underlying error, and the failing unit's apply is attempted
    exactly once (no automatic retry). -/
theorem apply_failure_halts (outcome : String → UnitOutcome)
    (before after : List DeploymentUnit) (u : DeploymentUnit) (err : String)
    (hnd : ((before ++ u :: after).map (fun v => v.id)).Nodup)
    (hok : ∀ v ∈ before, outcome v.id = UnitOutcome.succeeds)
    (hde : depsFromEarlier before [] = true)
    (hu : depsReady (pushIds before []) u = true)
    (hfail : outcome u.id = UnitOutcome.applyFails err) :
    execPlan outcome (before ++ u :: after) [] =
        okEvents before ++ [Event.applying u.id, Event.failed u.id err] ∧
    (∀ v ∈ after, Event.applying v.id ∉ execPlan outcome (before ++ u :: after) []) ∧
    (execPlan outcome (before ++ u :: after) []).count (Event.applying u.id) = 1 := by
  have htrace : execPlan outcome (before ++ u :: after) [] =
      okEvents before ++ [Event.applying u.id, Event.failed u.id err] := by
    rw [execPlan_ok_segment outcome before (u :: after) [] hok hde]
    rw [execPlan, if_pos hu, hfail]
  have hndsplit := hnd
  rw [List.map_append, List.nodup_append] at hndsplit
  obtain ⟨hnd1, hnd2, hdisj⟩ := hndsplit
  have huid_not_before : u.id ∉ before.map (fun v => v.id) := by
    intro hmem
    exact hdisj hmem (by simp)
  refine ⟨htrace, ?_, ?_⟩
  · intro v hv hmem
    rw [htrace] at hmem
    rcases List.mem_append.mp hmem with h1 | h1
    · have hvid : v.id ∈ before.map (fun w => w.id) :=
        (applying_mem_okEvents before v.id).mp h1
      refine hdisj hvid ?_
      simp only [List.map_cons, List.mem_cons]
      right
      exact List.mem_map_of_mem (fun w => w.id) hv
    · have hvu : v.id = u.id := by
        rcases List.mem_cons.mp h1 with h2 | h2
        · exact Event.applying.inj h2
        · simp at h2
      have : u.id ∉ after.map (fun w => w.id) := by
        simp only [List.map_cons, List.nodup_cons] at hnd2
        exact hnd2.1
      exact this (hvu ▸ List.mem_map_of_mem (fun w => w.id) hv)
  · rw [htrace, List.count_append]
    have h0 : (okEvents before).count (Event.applying u.id) = 0 := by
      rw [List.count_eq_zero]
      intro hmem
      exact huid_not_before ((applying_mem_okEvents before u.id).mp hmem)
    rw [h0]
    simp

/-- Witness for C4: in the concrete pipeline where `build-and-push` fails its
    apply, the run halts at that failure with the failing unit's identity and
    the underlying error, and `deploy-ecs` never starts. -/
theorem apply_failure_halts_pipeline :
    execPlan buildPushFails ([deployEcrUnit] ++ buildAndPushUnit :: [deployEcsUnit]) [] =
      [Event.applying "deploy-ecr", Event.ready "deploy-ecr",
       Event.applying "build-and-push",
       Event.failed "build-and-push" "docker push failed"] ∧
    Event.applying "deploy-ecs" ∉
      execPlan buildPushFails ([deployEcrUnit] ++ buildAndPushUnit :: [deployEcsUnit]) [] := by
  have h := apply_failure_halts buildPushFails [deployEcrUnit] [deployEcsUnit]
    buildAndPushUnit "docker push failed" (by decide) (by decide) (by decide)
    (by decide) (by decide)
  refine ⟨?_, ?_⟩
  · rw [h.1]
    rfl
  · have := h.2.1 deployEcsUnit (by decide)
    simpa using this

theorem recordBinding_preserves (bs : OutputBindings) (uid oname v : String)
    (h : lookupBinding bs uid oname = some v) (u2 o2 v2 : String) :
    lookupBinding (recordBinding bs u2 o2 v2) uid oname = some v := by
  unfold recordBinding
  by_cases hsome : (lookupBinding bs u2 o2).isSome
  · rw [if_pos hsome]
    exact h
  · rw [if_neg hsome]
    by_cases hkey : u2 = uid ∧ o2 = oname
    · exfalso
      apply hsome
      rw [hkey.1, hkey.2, h]
      rfl
    · unfold lookupBinding
      rw [List.find?_cons]
      have hcond : ((⟨u2, o2, v2⟩ : Binding).unitId = uid &&
          (⟨u2, o2, v2⟩ : Binding).outputName = oname) = false := by
        by_cases h1 : u2 = uid
        · have h2 : ¬o2 = oname := fun h2 => hkey ⟨h1, h2⟩
          simp [h1, h2]
        · simp [h1]
      rw [hcond]
      exact h

/-- C5: within a single orchestration run the Output Bindings map is
    write-once per (unit identifier, output name) key — once a value is
    recorded, no later sequence of binding writes changes what the key reads
    back to; a second write for the same key is a no-op, never a silent
    overwrite. -/
theorem binding_write_once (bs : OutputBindings) (uid oname v : String)
    (h : lookupBinding bs uid oname = some v) (writes : List Binding) :
    lookupBinding (recordAll bs writes) uid oname = some v := by
  induction writes generalizing bs with
  | nil => exact h
  | cons w ws ih =>
    exact ih (recordBinding bs w.unitId w.outputName w.value)
      (recordBinding_preserves bs uid oname v h w.unitId w.outputName w.value)

/-- Witness for C5: `FoundationStack`'s recorded `EcrRepositoryUri` value
    survives a conflicting later write unchanged. -/
theorem binding_write_once_foundation :
    lookupBinding
      (recordAll (recordBinding [] "FoundationStack" "EcrRepositoryUri" "uri-one")
        [⟨"FoundationStack", "EcrRepositoryUri", "uri-two"⟩])
      "FoundationStack" "EcrRepositoryUri" = some "uri-one" :=
  binding_write_once (recordBinding [] "FoundationStack" "EcrRepositoryUri" "uri-one")
    "FoundationStack" "EcrRepositoryUri" "uri-one" (by rfl)
    [⟨"FoundationStack", "EcrRepositoryUri", "uri-two"⟩]

theorem monitorLoop_actions_polls (obs : Nat → HealthState) :
    ∀ (n t : Nat), ∀ a ∈ (monitorLoop obs n t).1, ∃ s, a = MonitorAction.poll s := by
  intro n
  induction n with
  | zero => intro t a ha; simp [monitorLoop] at ha
  | succ m ih =>
    intro t a ha
    rw [monitorLoop] at ha
    cases hobs : obs t with
    | stable =>
      rw [hobs] at ha
      simp at ha
      exact ⟨t, ha⟩
    | rolledBack =>
      rw [hobs] at ha
      simp at ha
      exact ⟨t, ha⟩
    | deploying =>
      rw [hobs] at ha
      simp only [List.mem_cons] at ha
      rcases ha with h1 | h1
      · exact ⟨t, h1⟩
      · exact ih (t + 1) a h1

theorem monitorLoop_rollback (obs : Nat → HealthState) :
    ∀ (n t k : Nat), k < n → obs (t + k) = HealthState.rolledBack →
      (∀ j, j < k → obs (t + j) = HealthState.deploying) →
      monitorLoop obs n t =
        ((List.range (k + 1)).map (fun i => MonitorAction.poll (t + i)),
         MonitorResult.deploymentUnstable HealthState.rolledBack) := by
  intro n
  induction n with
  | zero =>
    intro t k hk
    exact absurd hk (Nat.not_lt_zero k)
  | succ m ih =>
    intro t k hk hroll hbefore
    cases k with
    | zero =>
      have h0 : obs t = HealthState.rolledBack := by simpa using hroll
      rw [monitorLoop, h0]
      simp [List.range_succ]
    | succ k2 =>
      have h0 : obs t = HealthState.deploying := by
        simpa using hbefore 0 (Nat.succ_pos k2)
      rw [monitorLoop, h0]
      have hrec := ih (t + 1) k2 (by omega)
        (by rw [show t + 1 + k2 = t + (k2 + 1) by omega]; exact hroll)
        (fun j hj => by
          rw [show t + 1 + j = t + (j + 1) by omega]
          exact hbefore (j + 1) (by omega))
      rw [hrec]
      simp only [Prod.mk.injEq, and_true]
      conv_rhs => rw [List.range_succ_eq_map, List.map_cons, List.map_map]
      congr 1
      apply List.map_congr_left
      intro i _
      simp only [Function.comp_apply]
      congr 1
      omega

/-- C7: when the Stability Monitor observes a regression — the workload's own
    rollback mechanism reports failure after the final unit is applied — it
    surfaces `DeploymentUnstableError` carrying the last known state, and it
    performs no remediation of its own: every action it takes against the
    external system is a read-only poll. -/
theorem stability_monitor_observes_only (obs : Nat → HealthState) (n k : Nat)
    (hk : k < n) (hroll : obs k = HealthState.rolledBack)
    (hbefore : ∀ j, j < k → obs j = HealthState.deploying) :
    (monitorLoop obs n 0).2 = MonitorResult.deploymentUnstable HealthState.rolledBack ∧
    ∀ a ∈ (monitorLoop obs n 0).1, ∃ s, a = MonitorAction.poll s := by
  have h := monitorLoop_rollback obs n 0 k hk (by simpa using hroll)
    (fun j hj => by simpa using hbefore j hj)
  exact ⟨by rw [h], monitorLoop_actions_polls obs n 0⟩

/-- Witness for C7: on a concrete health trace in which the platform reports
    a rollback at the third poll, the monitor surfaces the unstable verdict. -/
theorem stability_monitor_observes_only_concrete :
    (monitorLoop rollbackObs 5 0).2 =
      MonitorResult.deploymentUnstable HealthState.rolledBack :=
  (stability_monitor_observes_only rollbackObs 5 2 (by decide) (by decide)
    (by decide)).1

/-- C8: `getEnvOrThrow` returns the variable's value exactly when it is set
    to a non-empty string and throws an error naming the variable otherwise —
    a variable set to the empty string is treated as missing; `getEnvOrDefault`
    returns the default only when the variable is entirely unset, and returns
    the set value (the empty string included) whenever the variable is set. -/
theorem env_helpers_spec (env : Env) (name dflt v : String) :
    (getEnvOrThrow env name = Except.ok v ↔ env name = some v ∧ v ≠ "") ∧
    ((env name = none ∨ env name = some "") →
      getEnvOrThrow env name =
        Except.error ("Required environment variable " ++ name ++ " must be set")) ∧
    (env name = none → getEnvOrDefault env name dflt = dflt) ∧
    (∀ w, env name = some w → getEnvOrDefault env name dflt = w) := by
  cases h : env name with
  | none =>
    refine ⟨?_, ?_, ?_, ?_⟩
    · simp [getEnvOrThrow, h]
    · intro _
      simp [getEnvOrThrow, h]
    · intro _
      simp [getEnvOrDefault, h]
    · intro w hw
      cases hw
  | some w =>
    by_cases hw : w = ""
    · subst hw
      refine ⟨?_, ?_, ?_, ?_⟩
      · simp only [getEnvOrThrow, h]
        constructor
        · intro h2
          simp at h2
        · intro h2
          exact absurd (Option.some.inj h2.1).symm h2.2
      · intro _
        simp [getEnvOrThrow, h]
      · intro h2
        cases h2
      · intro w2 hw2
        have hw2b : w2 = "" := (Option.some.inj hw2).symm
        subst hw2b
        simp [getEnvOrDefault, h]
    · refine ⟨?_, ?_, ?_, ?_⟩
      · simp only [getEnvOrThrow, h]
        rw [if_neg hw]
        constructor
        · intro h2
          injection h2 with h3
          exact ⟨by rw [h3], by rw [← h3]; exact hw⟩
        · intro h2
          rw [Option.some.inj h2.1]
      · intro h2
        rcases h2 with h2 | h2
        · cases h2
        · exact absurd (Option.some.inj h2) hw
      · intro h2
        cases h2
      · intro w2 hw2
        have hw2b : w2 = w := (Option.some.inj hw2).symm
        subst hw2b
        simp [getEnvOrDefault, h]

/-- Witness for C8: on a concrete environment, a set non-empty variable is
    returned, an empty-string variable throws and is not defaulted, and an
    unset variable is defaulted. -/
theorem env_helpers_spec_concrete :
    getEnvOrThrow sampleEnv "AWS_ACCOUNT_ID" = Except.ok "123456789012" ∧
    getEnvOrThrow sampleEnv "AWS_VPC_ID" =
      Except.error ("Required environment variable " ++ "AWS_VPC_ID" ++ " must be set") ∧
    getEnvOrDefault sampleEnv "IMAGE_TAG" "latest" = "latest" ∧
    getEnvOrDefault sampleEnv "AWS_VPC_ID" "fallback" = "" :=
  ⟨(env_helpers_spec sampleEnv "AWS_ACCOUNT_ID" "latest" "123456789012").1.mpr
      ⟨by rfl, by decide⟩,
   (env_helpers_spec sampleEnv "AWS_VPC_ID" "latest" "x").2.1 (Or.inr (by rfl)),
   (env_helpers_spec sampleEnv "IMAGE_TAG" "latest" "x").2.2.1 (by rfl),
   (env_helpers_spec sampleEnv "AWS_VPC_ID" "fallback" "x").2.2.2 "" (by rfl)⟩

/-- C9: `BaseStack.allocateLogicalId` returns the `prefix` context value
    concatenated in front of the superclass-allocated logical id when that
    value is a non-empty string, returns the default id unchanged when the
    context value is absent or empty, and in every case the suffix after the
    added front part is exactly the default logical id. -/
theorem allocateLogicalId_spec (ctxVal : Option String) (orig : String) :
    (∀ p, ctxVal = some p → p ≠ "" → allocateLogicalId ctxVal orig = p ++ orig) ∧
    ((ctxVal = none ∨ ctxVal = some "") → allocateLogicalId ctxVal orig = orig) ∧
    (∃ front, allocateLogicalId ctxVal orig = front ++ orig ∧
      (front = "" ∨ ctxVal = some front)) := by
  cases ctxVal with
  | none =>
    refine ⟨?_, fun _ => rfl, ⟨"", by simp [allocateLogicalId]⟩⟩
    intro p hp
    cases hp
  | some p =>
    by_cases hp : p = ""
    · subst hp
      refine ⟨?_, ?_, ⟨"", by simp [allocateLogicalId]⟩⟩
      · intro p2 hp2 hne
        exact absurd (Option.some.inj hp2).symm hne
      · intro _
        simp [allocateLogicalId]
    · refine ⟨?_, ?_, ⟨p, ?_, Or.inr rfl⟩⟩
      · intro p2 hp2 hne
        have hp2b : p2 = p := (Option.some.inj hp2).symm
        subst hp2b
        simp only [allocateLogicalId]
        rw [if_neg hp]
      · intro h2
        rcases h2 with h2 | h2
        · cases h2
        · exact absurd (Option.some.inj h2) hp
      · simp only [allocateLogicalId]
        rw [if_neg hp]

/-- Witness for C9: a non-empty `Dev` context value is prepended to the
    superclass id, and an absent or empty context value leaves it unchanged. -/
theorem allocateLogicalId_spec_concrete :
    allocateLogicalId (some "Dev") "AppRepositoryC8A1" = "Dev" ++ "AppRepositoryC8A1" ∧
    allocateLogicalId none "AppRepositoryC8A1" = "AppRepositoryC8A1" ∧
    allocateLogicalId (some "") "AppRepositoryC8A1" = "AppRepositoryC8A1" :=
  ⟨(allocateLogicalId_spec (some "Dev") "AppRepositoryC8A1").1 "Dev" rfl (by decide),
   (allocateLogicalId_spec none "AppRepositoryC8A1").2.1 (Or.inl rfl),
   (allocateLogicalId_spec (some "") "AppRepositoryC8A1").2.1 (Or.inr rfl)⟩

/-- C10: when `IMAGE_TAG` is unset, the `ServiceStack` container image is the
    `app-mp` repository at the mutable tag `latest` — that repository is
    created with mutable tag semantics — and the deployment pins an exact
    image only when `IMAGE_TAG` is explicitly provided. -/
theorem image_tag_defaults_latest (env : Env) :
    (env "IMAGE_TAG" = none →
      serviceContainerImage (serviceStackProps env) =
        ⟨"app-mp", "latest"⟩) ∧
    (foundationRepository environment).imageTagMutability = TagMutability.mutableTags ∧
    (∀ t, env "IMAGE_TAG" = some t →
      (serviceContainerImage (serviceStackProps env)).tag = t) := by
  refine ⟨?_, rfl, ?_⟩
  · intro h
    simp only [serviceContainerImage, serviceStackProps, IMAGE_TAG, getEnvOrDefault,
      foundationRepository, environment, h]
    rfl
  · intro t h
    simp only [serviceContainerImage, serviceStackProps, IMAGE_TAG, getEnvOrDefault, h]

/-- Witness for C10: with no environment variables set, the service container
    image is `app-mp:latest`. -/
theorem image_tag_defaults_latest_unset :
    serviceContainerImage (serviceStackProps emptyEnv) =
      (⟨"app-mp", "latest"⟩ : EcrImageRef) :=
  (image_tag_defaults_latest emptyEnv).1 (by rfl)
